import Mathlib

/-!
Verification of the recipe-discovery core: the reverse-index trie
(`src/utils/reverse_index_trie.py`, class `TrieManager`) and the
veto-weighted scoring/ranking pipeline (`tests/processor.py`).

Strings are modelled as lists of characters; Python `str.lower` is
modelled per character by `Char.toLower`, `str.strip` by dropping
whitespace on both ends, and `str.split(sep)` (single-character
separator) by `List.splitOn`.  Filesystem modification times are
modelled as naturals, `0` standing for a missing file exactly as
`_get_file_mtime` returns `0.0` on `OSError`.  Python `float`
arithmetic in the scorer is modelled over `ℚ`.
-/

namespace RecipeCore

open List

abbrev Word := List Char

/-- Python `word.lower()`, per character. -/
def lowerW (w : Word) : Word := w.map Char.toLower

/-- Python `str.strip()`: drop whitespace from both ends. -/
def stripW (w : Word) : Word :=
  ((w.dropWhile Char.isWhitespace).reverse.dropWhile Char.isWhitespace).reverse

/-- A node of the trie of `reverse_index_trie.py`: the Python dict maps
single-character keys to child nodes and the reserved 7-character key
`"__ids__"` (never a single character, hence stored separately here) to
the posting list of document ids. -/
inductive Trie where
  | node : Option (List Nat) → List (Char × Trie) → Trie

/-- The posting list slot of a node (`node.get("__ids__")`). -/
def Trie.ids : Trie → Option (List Nat)
  | .node i _ => i

/-- The child map of a node, in dict insertion order. -/
def Trie.children : Trie → List (Char × Trie)
  | .node _ cs => cs

/-- The empty root: `self.trie_root = {}`. -/
def emptyTrie : Trie := .node none []

/-- Python `char in node` / `node[char]`: first entry with the given key. -/
def lookupChild (cs : List (Char × Trie)) (c : Char) : Option Trie :=
  match cs with
  | [] => none
  | (c', t) :: rest => if c' = c then some t else lookupChild rest c

/-- Overwrite the first child with key `c`, or append a new entry —
exactly how assignment to a Python dict key behaves. -/
def setChild (cs : List (Char × Trie)) (c : Char) (t : Trie) : List (Char × Trie) :=
  match cs with
  | [] => [(c, t)]
  | (c', t') :: rest => if c' = c then (c, t) :: rest else (c', t') :: setChild rest c t

/-- The posting-list update of `_add_to_trie`: create `"__ids__"` when
absent, append `doc_id` only when not already present. -/
def insertIds (o : Option (List Nat)) (d : Nat) : Option (List Nat) :=
  let l := o.getD []
  some (if d ∈ l then l else l ++ [d])

/-- The walk/create loop of `_add_to_trie` from a given node, followed by
the posting-list update at the final node. -/
def insertPath (w : Word) (t : Trie) (d : Nat) : Trie :=
  match w, t with
  | [], .node ids cs => .node (insertIds ids d) cs
  | c :: rest, .node ids cs =>
      .node ids (setChild cs c (insertPath rest ((lookupChild cs c).getD emptyTrie) d))

/-- Model of `TrieManager._add_to_trie`: clean the word (`word.lower().strip()`),
skip it when empty, otherwise insert its character path. -/
def addToTrie (t : Trie) (w : Word) (d : Nat) : Trie :=
  if stripW (lowerW w) = [] then t else insertPath (stripW (lowerW w)) t d

/-- Folding `_add_to_trie` over a list of (token, document-id) pairs. -/
def buildTrie (ps : List (Word × Nat)) : Trie :=
  ps.foldl (fun t p => addToTrie t p.1 p.2) emptyTrie

/-- The descent loop of `search`: follow one child per character,
failing as soon as a character is absent. -/
def walk (t : Trie) (w : Word) : Option Trie :=
  match w with
  | [] => some t
  | c :: rest =>
      match lookupChild t.children c with
      | some t' => walk t' rest
      | none => none

mutual
/-- Number of nodes of a trie (termination measure for the work-stack loop). -/
def Trie.size : Trie → Nat
  | .node _ cs => 1 + sizeL cs
/-- Total node count of a child list. -/
def sizeL : List (Char × Trie) → Nat
  | [] => 0
  | (_, t) :: cs => t.size + sizeL cs
end

/-- Total node count of a work stack. -/
def stackSize (st : List (Trie × Word)) : Nat :=
  (st.map (fun p => p.1.size)).sum

/-- The `while stack:` loop of `_collect_words_iterative`.  The Python list
is used as a stack with its top at the end; here the stack's head is the
top, so the children pushed by one iteration appear reversed in front of
the remaining stack. -/
def collectIter : List (Trie × Word) → List Word → List Word
  | [], acc => acc
  | (t, w) :: rest, acc =>
      collectIter ((t.children.map (fun p => (p.2, w ++ [p.1]))).reverse ++ rest)
        (if t.ids.isSome then acc ++ [w] else acc)
termination_by st _ => stackSize st
decreasing_by
  simp only [stackSize, List.map_append, List.map_reverse, List.sum_append,
    List.sum_reverse, List.map_map, List.map_cons, Function.comp_def]
  have key : ∀ cs : List (Char × Trie),
      ((cs.map fun p => ((p.2, w ++ [p.1]) : Trie × Word).1.size)).sum = sizeL cs := by
    intro cs
    induction cs with
    | nil => rfl
    | cons q cs ih => cases q; simp [sizeL, ih]
  rw [key t.children]
  have h2 : sizeL t.children < t.size := by
    cases t with
    | node ids cs => simp [Trie.size, Trie.children]
  exact Nat.add_lt_add_right h2 _

/-- Model of `TrieManager._collect_words_iterative`. -/
def collectWordsIterative (start : Trie) (pre : Word) : List Word :=
  collectIter [(start, pre)] []

/-- Model of `TrieManager.search`: empty queries answer `[]`, otherwise the
case-folded (never trimmed) query is walked and the subtree collected. -/
def searchT (t : Trie) (pre : Word) : List Word :=
  if pre = [] then []
  else
    match walk t (lowerW pre) with
    | some n => collectWordsIterative n (lowerW pre)
    | none => []

mutual
/-- Specification view of a trie: the list of words spelled by paths
ending at a node that carries a posting list. -/
def wordsRec : Trie → List Word
  | .node ids cs => (if ids.isSome then [[]] else []) ++ wordsRecL cs
/-- Words of a child list, each prefixed by its edge character. -/
def wordsRecL : List (Char × Trie) → List Word
  | [] => []
  | (c, t) :: cs => (wordsRec t).map (c :: ·) ++ wordsRecL cs
end

mutual
/-- The dict invariant: every node's child keys are distinct (true of any
Python dict, carried explicitly by this association-list model). -/
def good : Trie → Prop
  | .node _ cs => (cs.map Prod.fst).Nodup ∧ goodL cs
/-- All tries of a child list satisfy `good`. -/
def goodL : List (Char × Trie) → Prop
  | [] => True
  | (_, t) :: cs => good t ∧ goodL cs
end

/-- The words an individual stack entry will eventually contribute. -/
def prodW (p : Trie × Word) : List Word := (wordsRec p.1).map (p.2 ++ ·)

/-!
The scoring and ranking pipeline of `tests/processor.py`
(`calculate_row_score` / `find_best_recipes`) with the constants of
`config.py` (`WEIGHT_INGREDIENT_MATCH = 10.0`, `SEPARATOR = ';'`).
Python float arithmetic is modelled over `ℚ`.
-/

/-- A dataset row with the columns the pipeline touches: `id`,
`name_clean`, `ingredients_serialized` (`none` models a non-string cell,
e.g. NaN), `review_count`. -/
structure Recipe where
  rid : Nat
  name : Word
  ingredients : Option Word
  reviewCount : Int
deriving DecidableEq

/-- The constant `config.WEIGHT_INGREDIENT_MATCH` (`10.0`). -/
def weightIngredientMatch : ℚ := 10

/-- The constant `config.SEPARATOR`. -/
def sepChar : Char := ';'

/-- Tokenization of `calculate_row_score`:
`[i.strip().lower() for i in ing_str.split(config.SEPARATOR)]`. -/
def ingredientTokens (s : Word) : List Word :=
  (List.splitOn sepChar s).map (fun i => lowerW (stripW i))

/-- Model of `calculate_row_score`: `(final_score, accuracy_percentage)`. -/
def calculateRowScore (row : Recipe) (likes dislikes : List Word) : ℚ × ℚ :=
  match row.ingredients with
  | none => (-1, 0)
  | some ingStr =>
      let ingredients := ingredientTokens ingStr
      if dislikes.any (fun d => ingredients.any (fun ing => decide (d <:+: ing))) then
        (-1, 0)
      else
        let finalScore : ℚ :=
          (likes.countP (fun l => ingredients.any (fun ing => decide (l <:+: ing))) : ℚ) *
            weightIngredientMatch
        let maxPossibleScore : ℚ := (likes.length : ℚ) * weightIngredientMatch
        (finalScore, if maxPossibleScore > 0 then finalScore / maxPossibleScore * 100 else 0)

/-- The two sort keys of `find_best_recipes`:
`by=['final_score', config.COL_REVIEWS]`. -/
def scoreKey (x : Recipe × ℚ × ℚ) : ℚ × Int := (x.2.1, x.1.reviewCount)

/-- Descending lexicographic order on (score, review count): `a` may be
placed no later than `b` under `ascending=[False, False]`. -/
def keyGE (a b : Recipe × ℚ × ℚ) : Prop :=
  (scoreKey b).1 < (scoreKey a).1 ∨
    ((scoreKey a).1 = (scoreKey b).1 ∧ (scoreKey b).2 ≤ (scoreKey a).2)

instance : DecidableRel keyGE := fun a b => by
  unfold keyGE; infer_instance

instance : IsTotal (Recipe × ℚ × ℚ) keyGE where
  total a b := by
    unfold keyGE
    rcases lt_trichotomy (scoreKey a).1 (scoreKey b).1 with h | h | h
    · exact Or.inr (Or.inl h)
    · rcases le_total (scoreKey b).2 (scoreKey a).2 with h2 | h2
      · exact Or.inl (Or.inr ⟨h, h2⟩)
      · exact Or.inr (Or.inr ⟨h.symm, h2⟩)
    · exact Or.inl (Or.inl h)

instance : IsTrans (Recipe × ℚ × ℚ) keyGE where
  trans a b c hab hbc := by
    unfold keyGE at *
    rcases hab with h1 | ⟨h1, h1'⟩ <;> rcases hbc with h2 | ⟨h2, h2'⟩
    · exact Or.inl (h2.trans h1)
    · exact Or.inl (h2 ▸ h1)
    · exact Or.inl (h1 ▸ h2)
    · exact Or.inr ⟨h1.trans h2, h2'.trans h1'⟩

/-- The per-row application of `calculate_row_score` over the frame
(`df.progress_apply(..., axis=1)` plus the two new columns). -/
def scoredRows (rows : List Recipe) (likes dislikes : List Word) :
    List (Recipe × ℚ × ℚ) :=
  rows.map (fun r => (r, calculateRowScore r likes dislikes))

/-- The filter `df[df['final_score'] >= 0]`: drop disqualified rows. -/
def validRows (rows : List Recipe) (likes dislikes : List Word) :
    List (Recipe × ℚ × ℚ) :=
  (scoredRows rows likes dislikes).filter (fun x => 0 ≤ x.2.1)

/-- The sort `sort_values(by=['final_score', review_count], ascending=[False, False])`.
pandas performs multi-key sorts through `numpy.lexsort`, which is stable;
modelled as a stable insertion sort under `keyGE`. -/
def sortedRows (rows : List Recipe) (likes dislikes : List Word) :
    List (Recipe × ℚ × ℚ) :=
  List.insertionSort keyGE (validRows rows likes dislikes)

/-- Model of `find_best_recipes`: score, filter, sort, `.head(5)`, and project the
columns `[id, name_clean, final_score, accuracy]`. -/
def findBestRecipes (rows : List Recipe) (likes dislikes : List Word) :
    List (Nat × Word × ℚ × ℚ) :=
  ((sortedRows rows likes dislikes).take 5).map
    (fun x => (x.1.rid, x.1.name, x.2.1, x.2.2))

/-!
The cache layer of `TrieManager` (`__init__` → `_generate_trie_if_needed`
→ `_load_trie`).  The filesystem is abstracted to the two mtimes
(naturals, `0` = missing, as `_get_file_mtime` returns `0.0` on
`OSError`) and the artifact contents: `none` = file missing, `some none`
= present but unreadable (corrupt/truncated JSON), `some (some t)` =
valid snapshot of trie `t`.  A boolean `writeOk` models whether the
`open`/`json.dump`/`shutil.move` sequence raises `OSError`.
-/

/-- Persisted artifact state. -/
abbrev Artifact := Option (Option Trie)

/-- One CSV row: (id cell, data cell); `none` models a NaN cell. -/
abbrev SourceRow := Option Nat × Option Word

/-- The chunked build loop of `_generate_trie_if_needed`: `dropna` on the
two columns, split each data cell on the separator, insert every item.
(Chunked reading concatenates to the same fold.) -/
def buildFromSource (sep : Char) (rows : List SourceRow) : Trie :=
  (rows.filterMap (fun r => match r with
    | (some d, some s) => some (d, s)
    | _ => none)).foldl
    (fun t rd => (List.splitOn sep rd.2).foldl (fun t item => addToTrie t item rd.1) t)
    emptyTrie

/-- Result of `_generate_trie_if_needed`: the artifact state afterwards and
whether the index builder ran. -/
structure GenOutcome where
  artifact : Artifact
  builderRan : Bool

/-- Model of `_generate_trie_if_needed`: skip entirely when
`output_mtime > input_mtime and output_mtime > 0`; otherwise rebuild from
the current source and persist atomically; an `OSError` during the write
is caught (the temp file is removed, the artifact left unchanged). -/
def generateTrieIfNeeded (rows : List SourceRow) (sep : Char)
    (inputMtime outputMtime : Nat) (art : Artifact) (writeOk : Bool) : GenOutcome :=
  if outputMtime > inputMtime ∧ outputMtime > 0 then ⟨art, false⟩
  else if writeOk then ⟨some (some (buildFromSource sep rows)), true⟩
  else ⟨art, true⟩

/-- Model of `_load_trie`: deserialize the artifact, degrading to the empty trie on
`FileNotFoundError` or `JSONDecodeError`. -/
def loadTrie (art : Artifact) : Trie :=
  match art with
  | some (some t) => t
  | _ => emptyTrie

/-- What `TrieManager.__init__` leaves behind: the in-memory `trie_root`,
the artifact on disk, and whether the builder ran. -/
structure LoadOrBuildResult where
  trieRoot : Trie
  artifact : Artifact
  builderRan : Bool

/-- Model of `TrieManager.__init__` after the source-exists check:
`_generate_trie_if_needed` followed by `_load_trie`. -/
def loadOrBuild (rows : List SourceRow) (sep : Char) (inputMtime outputMtime : Nat)
    (art : Artifact) (writeOk : Bool) : LoadOrBuildResult :=
  let g := generateTrieIfNeeded rows sep inputMtime outputMtime art writeOk
  ⟨loadTrie g.artifact, g.artifact, g.builderRan⟩

lemma wordsRec_emptyTrie : wordsRec emptyTrie = [] := rfl

lemma good_emptyTrie : good emptyTrie := by
  constructor <;> simp [goodL]

lemma goodL_iff (cs : List (Char × Trie)) : goodL cs ↔ ∀ p ∈ cs, good p.2 := by
  induction cs with
  | nil => simp [goodL]
  | cons p cs ih => obtain ⟨c, t⟩ := p; simp [goodL, ih]

lemma fst_setChild (cs : List (Char × Trie)) (c : Char) (t : Trie) :
    (setChild cs c t).map Prod.fst =
      if c ∈ cs.map Prod.fst then cs.map Prod.fst else cs.map Prod.fst ++ [c] := by
  induction cs with
  | nil => simp [setChild]
  | cons p cs ih =>
    obtain ⟨c', t'⟩ := p
    by_cases hc : c' = c
    · subst hc; simp [setChild]
    · simp only [setChild, if_neg hc, List.map_cons, ih]
      split
      · next h => simp [List.mem_cons, h]
      · next h => simp [List.mem_cons, h, Ne.symm hc]

lemma lookupChild_eq_none (cs : List (Char × Trie)) (c : Char) :
    lookupChild cs c = none ↔ c ∉ cs.map Prod.fst := by
  induction cs with
  | nil => simp [lookupChild]
  | cons p cs ih =>
    obtain ⟨c', t'⟩ := p
    by_cases hc : c' = c
    · subst hc; simp [lookupChild]
    · simp [lookupChild, hc, ih, Ne.symm hc]

lemma good_lookupChild {cs : List (Char × Trie)} {c : Char} {t : Trie}
    (hg : goodL cs) (h : lookupChild cs c = some t) : good t := by
  induction cs with
  | nil => simp [lookupChild] at h
  | cons p cs ih =>
    obtain ⟨c', t'⟩ := p
    obtain ⟨hg1, hg2⟩ := hg
    by_cases hc : c' = c
    · subst hc; simp [lookupChild] at h; exact h ▸ hg1
    · simp [lookupChild, hc] at h; exact ih hg2 h

lemma goodL_setChild {cs : List (Char × Trie)} {t : Trie} (c : Char)
    (hg : goodL cs) (ht : good t) : goodL (setChild cs c t) := by
  induction cs with
  | nil => exact ⟨ht, trivial⟩
  | cons p cs ih =>
    obtain ⟨c', t'⟩ := p
    obtain ⟨hg1, hg2⟩ := hg
    by_cases hc : c' = c
    · subst hc; simpa [setChild] using ⟨ht, hg2⟩
    · simpa [setChild, hc] using ⟨hg1, ih hg2⟩

lemma good_insertPath (w : Word) : ∀ (t : Trie) (d : Nat), good t → good (insertPath w t d) := by
  induction w with
  | nil =>
    intro t d hg
    cases t with
    | node ids cs => exact hg
  | cons c rest ih =>
    intro t d hg
    cases t with
    | node ids cs =>
      obtain ⟨hk, hcs⟩ := hg
      refine ⟨?_, ?_⟩
      · rw [fst_setChild]
        split
        · exact hk
        · next hmem => exact hk.append (by simp) (by simpa using fun h => hmem h)
      · refine goodL_setChild c hcs (ih _ d ?_)
        cases hl : lookupChild cs c with
        | none => simpa [hl] using good_emptyTrie
        | some t' => simpa [hl] using good_lookupChild hcs hl

/-- Inserting a character path adds exactly that word to the stored-word set. -/
lemma mem_wordsRec_insertPath (w : Word) : ∀ (t : Trie) (d : Nat) (v : Word),
    v ∈ wordsRec (insertPath w t d) ↔ v = w ∨ v ∈ wordsRec t := by
  induction w with
  | nil =>
    intro t d v
    cases t with
    | node ids cs =>
      cases ids <;> simp [insertPath, wordsRec, insertIds]
  | cons c rest ih =>
    intro t d v
    cases t with
    | node ids cs =>
      have aux : ∀ cs : List (Char × Trie),
          v ∈ wordsRecL (setChild cs c
              (insertPath rest ((lookupChild cs c).getD emptyTrie) d)) ↔
            v = c :: rest ∨ v ∈ wordsRecL cs := by
        intro cs
        induction cs with
        | nil =>
          simp [setChild, lookupChild, wordsRecL, ih, wordsRec_emptyTrie, eq_comm]
        | cons p cs' ihcs =>
          obtain ⟨c', t'⟩ := p
          by_cases hc : c' = c
          · subst hc
            simp only [lookupChild, if_pos rfl, Option.getD_some, setChild, wordsRecL,
              List.mem_append, List.mem_map, ih]
            constructor
            · rintro (⟨s, rfl | hs, rfl⟩ | h)
              · exact Or.inl rfl
              · exact Or.inr (Or.inl ⟨s, hs, rfl⟩)
              · exact Or.inr (Or.inr h)
            · rintro (rfl | ⟨s, hs, rfl⟩ | h)
              · exact Or.inl ⟨rest, Or.inl rfl, rfl⟩
              · exact Or.inl ⟨s, Or.inr hs, rfl⟩
              · exact Or.inr h
          · simp only [lookupChild, if_neg hc, setChild, wordsRecL, List.mem_append, ihcs]
            tauto
      simp only [insertPath, wordsRec, List.mem_append, aux]
      tauto

lemma exists_of_mem_wordsRecL {cs : List (Char × Trie)} {v : Word} (h : v ∈ wordsRecL cs) :
    ∃ c t s, (c, t) ∈ cs ∧ s ∈ wordsRec t ∧ v = c :: s := by
  induction cs with
  | nil => simp [wordsRecL] at h
  | cons p cs ih =>
    obtain ⟨c, t⟩ := p
    simp only [wordsRecL, List.mem_append, List.mem_map] at h
    rcases h with ⟨s, hs, rfl⟩ | h
    · exact ⟨c, t, s, by simp, hs, rfl⟩
    · obtain ⟨c', t', s, hmem, hs, rfl⟩ := ih h
      exact ⟨c', t', s, by simp [hmem], hs, rfl⟩

lemma size_le_sizeL {cs : List (Char × Trie)} {c : Char} {t : Trie} (h : (c, t) ∈ cs) :
    t.size ≤ sizeL cs := by
  induction cs with
  | nil => simp at h
  | cons p cs ih =>
    obtain ⟨c', t'⟩ := p
    rcases List.mem_cons.mp h with heq | h
    · cases heq; simp [sizeL]
    · calc t.size ≤ sizeL cs := ih h
        _ ≤ t'.size + sizeL cs := Nat.le_add_left _ _

lemma nodup_wordsRec_aux : ∀ (n : Nat) (t : Trie), t.size ≤ n → good t → (wordsRec t).Nodup := by
  intro n
  induction n with
  | zero => intro t h; cases t; simp [Trie.size] at h
  | succ n ihn =>
    intro t hsz hg
    cases t with
    | node ids cs =>
      obtain ⟨hk, hcs⟩ := hg
      have hchild : ∀ c t', (c, t') ∈ cs → t'.size ≤ n := by
        intro c t' hmem
        have h1 := size_le_sizeL hmem
        have h2 : 1 + sizeL cs ≤ n + 1 := by simpa [Trie.size] using hsz
        omega
      have main : ∀ cs' : List (Char × Trie), (cs'.map Prod.fst).Nodup → goodL cs' →
          (∀ c t', (c, t') ∈ cs' → t'.size ≤ n) → (wordsRecL cs').Nodup := by
        intro cs'
        induction cs' with
        | nil => intro _ _ _; simp [wordsRecL]
        | cons p cs'' ih =>
          obtain ⟨c, t'⟩ := p
          intro hk' hcs' hsz'
          obtain ⟨hg', hcs''⟩ := hcs'
          simp only [wordsRecL]
          refine List.Nodup.append ?_ ?_ ?_
          · exact (ihn t' (hsz' c t' (by simp)) hg').map
              (fun a b h => by injection h)
          · exact ih (by simpa using hk'.of_cons) hcs''
              (fun c t h => hsz' c t (List.mem_cons_of_mem _ h))
          · intro x hx1 hx2
            obtain ⟨s, _, rfl⟩ := List.mem_map.mp hx1
            obtain ⟨c', t'', s', hmem, _, heq⟩ := exists_of_mem_wordsRecL hx2
            have hc : c' = c := by injection heq.symm
            subst hc
            have : c' ∈ cs''.map Prod.fst := List.mem_map.mpr ⟨(c', t''), hmem, rfl⟩
            exact (List.nodup_cons.mp (by simpa using hk')).1 this
      have hL := main cs hk hcs hchild
      cases ids with
      | none => simpa [wordsRec] using hL
      | some l =>
        simp only [wordsRec, Option.isSome, if_pos]
        refine List.Nodup.append (by simp) hL ?_
        intro x hx1 hx2
        obtain ⟨_, _, _, _, _, heq⟩ := exists_of_mem_wordsRecL hx2
        simp only [List.mem_singleton] at hx1
        subst hx1
        exact List.noConfusion heq

lemma nodup_wordsRec {t : Trie} (hg : good t) : (wordsRec t).Nodup :=
  nodup_wordsRec_aux t.size t le_rfl hg

lemma mem_wordsRecL_lookup {cs : List (Char × Trie)} (hk : (cs.map Prod.fst).Nodup)
    (c : Char) (x : Word) :
    (c :: x) ∈ wordsRecL cs ↔ ∃ t', lookupChild cs c = some t' ∧ x ∈ wordsRec t' := by
  induction cs with
  | nil => simp [wordsRecL, lookupChild]
  | cons p cs ih =>
    obtain ⟨c', t⟩ := p
    by_cases hc : c' = c
    · subst hc
      simp only [wordsRecL, List.mem_append, List.mem_map, lookupChild, if_pos rfl]
      constructor
      · rintro (⟨s, hs, heq⟩ | h)
        · have : s = x := by injection heq
          exact ⟨t, rfl, this ▸ hs⟩
        · obtain ⟨c'', t'', s', hmem, _, heq⟩ := exists_of_mem_wordsRecL h
          have hc'' : c'' = c' := by injection heq.symm
          subst hc''
          have : c'' ∈ cs.map Prod.fst := List.mem_map.mpr ⟨(c'', t''), hmem, rfl⟩
          exact absurd this (List.nodup_cons.mp (by simpa using hk)).1
      · rintro ⟨t', ht', hx⟩
        have : t = t' := by injection ht'
        exact Or.inl ⟨x, this ▸ hx, rfl⟩
    · simp only [wordsRecL, List.mem_append, List.mem_map, lookupChild, if_neg hc]
      rw [ih (by simpa using hk.of_cons)]
      constructor
      · rintro (⟨s, _, heq⟩ | h)
        · exact absurd (by injection heq.symm : c = c') (fun h => hc h.symm)
        · exact h
      · exact Or.inr

lemma good_walk : ∀ (p : Word) (t n : Trie), good t → walk t p = some n → good n := by
  intro p
  induction p with
  | nil =>
    intro t n hg h
    have ht : t = n := by simpa [walk] using h
    exact ht ▸ hg
  | cons c rest ih =>
    intro t n hg h
    cases t with
    | node ids cs =>
      simp only [walk, Trie.children] at h
      cases hl : lookupChild cs c with
      | none => rw [hl] at h; exact absurd h (by simp)
      | some t' =>
        rw [hl] at h
        exact ih t' n (good_lookupChild hg.2 hl) h

lemma mem_wordsRec_walk : ∀ (p : Word) (t n : Trie), good t → walk t p = some n →
    ∀ s, (p ++ s) ∈ wordsRec t ↔ s ∈ wordsRec n := by
  intro p
  induction p with
  | nil =>
    intro t n _ h s
    have : t = n := by simpa [walk] using h
    subst this; rfl
  | cons c rest ih =>
    intro t n hg h s
    cases t with
    | node ids cs =>
      simp only [walk, Trie.children] at h
      cases hl : lookupChild cs c with
      | none => rw [hl] at h; exact absurd h (by simp)
      | some t' =>
        rw [hl] at h
        have hkeys : (cs.map Prod.fst).Nodup := hg.1
        have hstep : (c :: (rest ++ s)) ∈ wordsRec (Trie.node ids cs) ↔
            (rest ++ s) ∈ wordsRec t' := by
          simp only [wordsRec, List.mem_append, mem_wordsRecL_lookup hkeys, hl]
          constructor
          · rintro (habs | ⟨t'', ht'', hx⟩)
            · exfalso; revert habs; split <;> simp
            · have : t' = t'' := by injection ht''
              exact this ▸ hx
          · intro hx
            exact Or.inr ⟨t', rfl, hx⟩
        rw [List.cons_append, hstep]
        exact ih t' n (good_lookupChild hg.2 hl) h s

lemma walk_none : ∀ (p : Word) (t : Trie), good t → walk t p = none →
    ∀ s, (p ++ s) ∉ wordsRec t := by
  intro p
  induction p with
  | nil => intro t _ h; simp [walk] at h
  | cons c rest ih =>
    intro t hg h s hmem
    cases t with
    | node ids cs =>
      simp only [walk, Trie.children] at h
      have hkeys : (cs.map Prod.fst).Nodup := hg.1
      have hL : (c :: (rest ++ s)) ∈ wordsRecL cs := by
        simpa [wordsRec] using hmem
      obtain ⟨t', hl, hx⟩ := (mem_wordsRecL_lookup hkeys _ _).mp hL
      rw [hl] at h
      exact ih t' (good_lookupChild hg.2 hl) h s hx

lemma prodW_node (ids : Option (List Nat)) (cs : List (Char × Trie)) (w : Word) :
    prodW (Trie.node ids cs, w) =
      (if ids.isSome then [w] else []) ++ (wordsRecL cs).map (w ++ ·) := by
  cases ids <;> simp [prodW, wordsRec]

@[simp] lemma children_node (ids : Option (List Nat)) (cs : List (Char × Trie)) :
    (Trie.node ids cs).children = cs := rfl

@[simp] lemma ids_node (ids : Option (List Nat)) (cs : List (Char × Trie)) :
    (Trie.node ids cs).ids = ids := rfl

lemma flatten_prodW_children (cs : List (Char × Trie)) (w : Word) :
    ((cs.map (fun p => (p.2, w ++ [p.1]))).map prodW).flatten =
      (wordsRecL cs).map (w ++ ·) := by
  induction cs with
  | nil => simp [wordsRecL]
  | cons p cs ih =>
    obtain ⟨c, t⟩ := p
    simp only [List.map_cons, List.flatten_cons, wordsRecL, List.map_append]
    rw [ih]
    congr 1
    rw [List.map_map]
    simp only [prodW]
    have hfun : ((fun x : Word => w ++ x) ∘ fun x : Word => c :: x) =
        (fun s : Word => (w ++ [c]) ++ s) := by
      funext s; simp
    rw [hfun]

/-- The work-stack loop emits, in some order, exactly the words contributed
by the stack entries, appended to the accumulator. -/
lemma collectIter_perm (st : List (Trie × Word)) (acc : List Word) :
    collectIter st acc ~ acc ++ (st.map prodW).flatten := by
  induction st, acc using collectIter.induct with
  | case1 acc => simp [collectIter]
  | case2 t w rest acc ih =>
    rw [collectIter]
    refine ih.trans ?_
    cases t with
    | node ids cs =>
      simp only [children_node, ids_node, dite_eq_ite] at ih ⊢
      rw [List.map_append, List.flatten_append, List.map_cons, List.flatten_cons,
        prodW_node]
      have h1 : ((cs.map (fun p => (p.2, w ++ [p.1]))).reverse.map prodW).flatten ~
          (wordsRecL cs).map (w ++ ·) := by
        rw [List.map_reverse]
        refine (List.reverse_perm _).flatten.trans ?_
        rw [flatten_prodW_children]
      refine Perm.trans ((h1.append_right _).append_left _) ?_
      have h2 : (if ids.isSome then acc ++ [w] else acc) ++
            ((wordsRecL cs).map (w ++ ·) ++ (rest.map prodW).flatten) =
          acc ++ ((if ids.isSome then [w] else []) ++ (wordsRecL cs).map (w ++ ·) ++
            (rest.map prodW).flatten) := by
        cases ids <;> simp
      rw [h2]

/-- The loop `_collect_words_iterative` returns, in some order, exactly the words of
the subtree, each prefixed with the query prefix. -/
lemma collectWordsIterative_perm (t : Trie) (w : Word) :
    collectWordsIterative t w ~ (wordsRec t).map (w ++ ·) := by
  simpa [prodW] using collectIter_perm [(t, w)] []

lemma lowerW_ne_nil {p : Word} (hp : p ≠ []) : lowerW p ≠ [] := by
  cases p with
  | nil => exact absurd rfl hp
  | cons c rest => simp [lowerW]

/-- Membership in a search result: exactly the stored words extending the
case-folded query. -/
lemma mem_searchT {t : Trie} (hg : good t) {p : Word} (hp : p ≠ []) (v : Word) :
    v ∈ searchT t p ↔ lowerW p <+: v ∧ v ∈ wordsRec t := by
  unfold searchT
  rw [if_neg hp]
  cases hw : walk t (lowerW p) with
  | none =>
    simp only [List.not_mem_nil, false_iff]
    rintro ⟨⟨s, rfl⟩, hv⟩
    exact walk_none _ t hg hw s hv
  | some n =>
    rw [(collectWordsIterative_perm n (lowerW p)).mem_iff]
    simp only [List.mem_map]
    constructor
    · rintro ⟨s, hs, rfl⟩
      exact ⟨⟨s, rfl⟩, (mem_wordsRec_walk _ t n hg hw s).mpr hs⟩
    · rintro ⟨⟨s, rfl⟩, hv⟩
      exact ⟨s, (mem_wordsRec_walk _ t n hg hw s).mp hv, rfl⟩

/-- Search results carry no duplicates. -/
lemma nodup_searchT {t : Trie} (hg : good t) (p : Word) : (searchT t p).Nodup := by
  unfold searchT
  split
  · simp
  · cases hw : walk t (lowerW p) with
    | none => simp
    | some n =>
      refine (collectWordsIterative_perm n (lowerW p)).nodup_iff.mpr ?_
      exact (nodup_wordsRec (good_walk _ t n hg hw)).map
        (fun a b h => List.append_cancel_left h)

lemma good_addToTrie (t : Trie) (w : Word) (d : Nat) (hg : good t) :
    good (addToTrie t w d) := by
  unfold addToTrie
  split
  · exact hg
  · exact good_insertPath _ _ _ hg

lemma good_buildTrie (ps : List (Word × Nat)) : good (buildTrie ps) := by
  suffices h : ∀ t, good t → good (ps.foldl (fun t p => addToTrie t p.1 p.2) t) from
    h emptyTrie good_emptyTrie
  induction ps with
  | nil => intro t h; exact h
  | cons q ps ih => intro t h; exact ih _ (good_addToTrie _ _ _ h)

lemma mem_wordsRec_addToTrie (t : Trie) (w : Word) (d : Nat) (v : Word) :
    v ∈ wordsRec (addToTrie t w d) ↔
      (v = stripW (lowerW w) ∧ stripW (lowerW w) ≠ []) ∨ v ∈ wordsRec t := by
  unfold addToTrie
  split
  · next h => simp [h]
  · next h => rw [mem_wordsRec_insertPath]; tauto

/-- The stored words of a built trie are exactly the non-empty cleaned tokens. -/
lemma mem_wordsRec_buildTrie (ps : List (Word × Nat)) (v : Word) :
    v ∈ wordsRec (buildTrie ps) ↔ ∃ q ∈ ps, stripW (lowerW q.1) = v ∧ v ≠ [] := by
  suffices h : ∀ t, v ∈ wordsRec (ps.foldl (fun t p => addToTrie t p.1 p.2) t) ↔
      (∃ q ∈ ps, stripW (lowerW q.1) = v ∧ v ≠ []) ∨ v ∈ wordsRec t by
    simpa [buildTrie, wordsRec_emptyTrie] using h emptyTrie
  induction ps with
  | nil => intro t; simp
  | cons q ps ih =>
    intro t
    simp only [List.foldl_cons, ih, mem_wordsRec_addToTrie, List.mem_cons]
    constructor
    · rintro (⟨p, hp, hv, hne⟩ | (⟨rfl, hne⟩ | hmem))
      · exact Or.inl ⟨p, Or.inr hp, hv, hne⟩
      · exact Or.inl ⟨q, Or.inl rfl, rfl, hne⟩
      · exact Or.inr hmem
    · rintro (⟨p, rfl | hp, hv, hne⟩ | hmem)
      · exact Or.inr (Or.inl ⟨hv.symm, hv ▸ hne⟩)
      · exact Or.inl ⟨p, hp, hv, hne⟩
      · exact Or.inr (Or.inr hmem)

/-- A non-empty stripped word never starts with whitespace. -/
lemma stripW_head_not_white {u : Word} {c : Char} {s : Word} (h : stripW u = c :: s) :
    c.isWhitespace = false := by
  have hpre : stripW u <+: u.dropWhile Char.isWhitespace := by
    have h1 : (u.dropWhile Char.isWhitespace).reverse.dropWhile Char.isWhitespace <:+
        (u.dropWhile Char.isWhitespace).reverse := List.dropWhile_suffix _
    have h2 := List.reverse_prefix.mpr h1
    simpa [stripW] using h2
  obtain ⟨r, hr⟩ := hpre
  rw [h] at hr
  have hd : u.dropWhile Char.isWhitespace = c :: (s ++ r) := by rw [← hr]; simp
  have hhead := List.head_dropWhile_not Char.isWhitespace (l := u) (by simp [hd])
  simpa [hd] using hhead

lemma toLower_of_whitespace {c : Char} (h : c.isWhitespace) : c.toLower = c := by
  simp [Char.isWhitespace] at h
  rcases h with ((h | h) | h) | h <;> subst h <;> decide

/-- C2: a trie built by `_add_to_trie` from (token, document-id) pairs
answers any non-empty query with exactly the cleaned (case-folded,
trimmed) inserted tokens that extend the case-folded query, without
duplicates and in an unspecified order. -/
theorem c2_search_returns_exact_matches (ps : List (Word × Nat)) (p : Word)
    (hp : p ≠ []) :
    (searchT (buildTrie ps) p).Nodup ∧
      ∀ w, w ∈ searchT (buildTrie ps) p ↔
        lowerW p <+: w ∧ ∃ q ∈ ps, stripW (lowerW q.1) = w := by
  constructor
  · exact nodup_searchT (good_buildTrie ps) p
  · intro w
    rw [mem_searchT (good_buildTrie ps) hp w, mem_wordsRec_buildTrie]
    constructor
    · rintro ⟨hpre, q, hq, hv, _⟩
      exact ⟨hpre, q, hq, hv⟩
    · rintro ⟨hpre, q, hq, hv⟩
      refine ⟨hpre, q, hq, hv, ?_⟩
      rintro rfl
      exact lowerW_ne_nil hp (List.prefix_nil.mp hpre)

theorem c2_search_returns_exact_matches_witness :
    (searchT (buildTrie [([' ', 'B', 'e', 'e', 'f'], 3)]) ['b']).Nodup ∧
      ['b', 'e', 'e', 'f'] ∈ searchT (buildTrie [([' ', 'B', 'e', 'e', 'f'], 3)]) ['b'] := by
  refine ⟨(c2_search_returns_exact_matches [([' ', 'B', 'e', 'e', 'f'], 3)] ['b']
    (by decide)).1, ?_⟩
  exact ((c2_search_returns_exact_matches [([' ', 'B', 'e', 'e', 'f'], 3)] ['b']
    (by decide)).2 _).mpr ⟨by decide, ([' ', 'B', 'e', 'e', 'f'], 3), by simp, by decide⟩

/-- C9: searching with the empty query returns the empty list, not the
set of all stored tokens. -/
theorem c9_search_empty_query (t : Trie) : searchT t [] = [] := by
  simp [searchT]

/-- C10: insertion trims tokens but `search` only case-folds its query,
so any query that starts with a whitespace character matches nothing in
a trie built by `_add_to_trie` — even when its trimmed form would. -/
theorem c10_search_query_not_trimmed (ps : List (Word × Nat)) (c : Char) (p : Word)
    (hc : c.isWhitespace) :
    searchT (buildTrie ps) (c :: p) = [] := by
  rw [List.eq_nil_iff_forall_not_mem]
  intro v hv
  rw [mem_searchT (good_buildTrie ps) (by simp) v] at hv
  obtain ⟨⟨r, hr⟩, hmem⟩ := hv
  rw [mem_wordsRec_buildTrie] at hmem
  obtain ⟨q, _, hstrip, hne⟩ := hmem
  have hv2 : v = c.toLower :: (lowerW p ++ r) := by
    rw [← hr]; simp [lowerW]
  have hw : (c.toLower).isWhitespace = false :=
    stripW_head_not_white (hstrip.trans hv2)
  rw [toLower_of_whitespace hc] at hw
  exact absurd hc (by simp [hw])

theorem c10_search_query_not_trimmed_witness :
    searchT (buildTrie [([' ', 'a', 'b'], 1)]) [' ', 'a'] = [] :=
  c10_search_query_not_trimmed [([' ', 'a', 'b'], 1)] ' ' ['a'] (by decide)

/-- C3: any disliked term occurring as a substring of any ingredient token
disqualifies the row — score is the sentinel `-1` and accuracy `0`,
whatever the likes are. -/
theorem c3_dislike_veto (row : Recipe) (likes dislikes : List Word) (s : Word)
    (hs : row.ingredients = some s)
    (hveto : ∃ d ∈ dislikes, ∃ ing ∈ ingredientTokens s, d <:+: ing) :
    calculateRowScore row likes dislikes = (-1, 0) := by
  unfold calculateRowScore
  rw [hs]
  have hcond : dislikes.any
      (fun d => (ingredientTokens s).any (fun ing => decide (d <:+: ing))) = true := by
    simp only [List.any_eq_true, decide_eq_true_eq]
    exact hveto
  simp [hcond]

theorem c3_dislike_veto_witness :
    calculateRowScore
      ⟨7, ['x'], some ['B', 'e', 'e', 'f', ';', 'O', 'n', 'i', 'o', 'n'], 3⟩
      [['b', 'e', 'e', 'f']] [['o', 'n', 'i']] = (-1, 0) :=
  c3_dislike_veto _ _ _ _ rfl
    ⟨['o', 'n', 'i'], by simp, ['o', 'n', 'i', 'o', 'n'], by decide, by decide⟩

/-- C4: a non-vetoed row with a string ingredient cell scores the number
of distinct liked terms contained in some token, times the weight; its
accuracy is score over the maximum possible score times 100, and an empty
likes list yields `(0, 0)` with no division by zero. -/
theorem c4_like_scoring (row : Recipe) (likes dislikes : List Word) (s : Word)
    (hs : row.ingredients = some s) (hnodup : likes.Nodup)
    (hnoveto : ¬ ∃ d ∈ dislikes, ∃ ing ∈ ingredientTokens s, d <:+: ing) :
    (calculateRowScore row likes dislikes).1 =
      ((likes.toFinset.filter
          (fun l => (ingredientTokens s).any (fun ing => decide (l <:+: ing)))).card : ℚ) *
        weightIngredientMatch ∧
    (likes ≠ [] → (calculateRowScore row likes dislikes).2 =
      (calculateRowScore row likes dislikes).1 /
        ((likes.length : ℚ) * weightIngredientMatch) * 100) ∧
    (likes = [] → calculateRowScore row likes dislikes = (0, 0)) := by
  have hcond : dislikes.any
      (fun d => (ingredientTokens s).any (fun ing => decide (d <:+: ing))) = false := by
    push_neg at hnoveto
    simp only [List.any_eq_false, List.any_eq_true, decide_eq_true_eq, not_exists, not_and]
    exact fun d hd => by simpa using hnoveto d hd
  have hcard : (likes.toFinset.filter
      (fun l => (ingredientTokens s).any (fun ing => decide (l <:+: ing)))).card =
      likes.countP (fun l => (ingredientTokens s).any (fun ing => decide (l <:+: ing))) := by
    rw [← List.toFinset_filter, List.toFinset_card_of_nodup (hnodup.filter _),
      likes.countP_eq_length_filter]
  refine ⟨?_, ?_, ?_⟩
  · unfold calculateRowScore
    rw [hs]
    simp only [hcond, Bool.false_eq_true, if_false, hcard]
  · intro hne
    have hpos : ((likes.length : ℚ) * weightIngredientMatch) > 0 := by
      have h1 : 0 < likes.length := List.length_pos.mpr hne
      have h10 : (0 : ℚ) < weightIngredientMatch := by norm_num [weightIngredientMatch]
      positivity
    unfold calculateRowScore
    rw [hs]
    simp only [hcond, Bool.false_eq_true, if_false, hpos, if_pos]
  · rintro rfl
    unfold calculateRowScore
    rw [hs]
    simp [hcond, weightIngredientMatch]

theorem c4_like_scoring_witness :
    (calculateRowScore
        ⟨2, ['y'], some ['b', 'e', 'e', 'f', ';', 'r', 'i', 'c', 'e'], 1⟩
        [['b', 'e', 'e', 'f'], ['k', 'a', 'l', 'e']] [['o', 'n', 'i', 'o', 'n']]).1 =
      ((([['b', 'e', 'e', 'f'], ['k', 'a', 'l', 'e']] :
            List Word).toFinset.filter
          (fun l => (ingredientTokens ['b', 'e', 'e', 'f', ';', 'r', 'i', 'c', 'e']).any
            (fun ing => decide (l <:+: ing)))).card : ℚ) * weightIngredientMatch :=
  (c4_like_scoring _ _ _ _ rfl (by decide) (by decide)).1

/-- C5: the ranking step of `find_best_recipes` orders qualifying rows by
score descending, then review count descending, and rows with equal keys
keep their input order (the pandas multi-key sort is stable). -/
theorem c5_rank_sorted_stable (rows : List Recipe) (likes dislikes : List Word) :
    List.Sorted keyGE (sortedRows rows likes dislikes) ∧
    sortedRows rows likes dislikes ~ validRows rows likes dislikes ∧
    (∀ a b : Recipe × ℚ × ℚ, scoreKey a = scoreKey b →
      [a, b] <+ validRows rows likes dislikes →
      [a, b] <+ sortedRows rows likes dislikes) ∧
    findBestRecipes rows likes dislikes =
      ((sortedRows rows likes dislikes).take 5).map
        (fun x => (x.1.rid, x.1.name, x.2.1, x.2.2)) := by
  refine ⟨List.sorted_insertionSort keyGE _, List.perm_insertionSort keyGE _, ?_, rfl⟩
  intro a b hk hsub
  exact List.pair_sublist_insertionSort (Or.inr ⟨congrArg Prod.fst hk,
    le_of_eq (congrArg Prod.snd hk.symm)⟩) hsub

theorem c5_rank_sorted_stable_witness :
    [((⟨1, ['a'], some ['x'], 7⟩ : Recipe), ((0 : ℚ), (0 : ℚ))),
     ((⟨2, ['b'], some ['y'], 7⟩ : Recipe), ((0 : ℚ), (0 : ℚ)))] <+
      sortedRows [⟨1, ['a'], some ['x'], 7⟩, ⟨2, ['b'], some ['y'], 7⟩] [] [] := by
  refine (c5_rank_sorted_stable [⟨1, ['a'], some ['x'], 7⟩, ⟨2, ['b'], some ['y'], 7⟩]
    [] []).2.2.1 _ _ (by decide) ?_
  have hv : validRows [⟨1, ['a'], some ['x'], 7⟩, ⟨2, ['b'], some ['y'], 7⟩] [] [] =
      [((⟨1, ['a'], some ['x'], 7⟩ : Recipe), ((0 : ℚ), (0 : ℚ))),
       ((⟨2, ['b'], some ['y'], 7⟩ : Recipe), ((0 : ℚ), (0 : ℚ)))] := by
    simp [validRows, scoredRows, calculateRowScore]
  rw [hv]

/-- C8: `find_best_recipes` returns at most 5 rows, none disqualified,
namely the top of the stable descending sort of the qualifying rows; an
empty or fully disqualified input yields the empty list, not an error. -/
theorem c8_rank_topk (rows : List Recipe) (likes dislikes : List Word) :
    (findBestRecipes rows likes dislikes).length ≤ 5 ∧
    (∀ e ∈ findBestRecipes rows likes dislikes, 0 ≤ e.2.2.1) ∧
    (∀ x ∈ (sortedRows rows likes dislikes).take 5,
      ∀ y ∈ (sortedRows rows likes dislikes).drop 5, keyGE x y) ∧
    ((sortedRows rows likes dislikes).take 5 ++ (sortedRows rows likes dislikes).drop 5
      ~ validRows rows likes dislikes) ∧
    (rows = [] → findBestRecipes rows likes dislikes = []) ∧
    ((∀ r ∈ rows, (calculateRowScore r likes dislikes).1 < 0) →
      findBestRecipes rows likes dislikes = []) := by
  refine ⟨?_, ?_, ?_, ?_, ?_, ?_⟩
  · simp [findBestRecipes]
  · intro e he
    simp only [findBestRecipes, List.mem_map] at he
    obtain ⟨x, hx, rfl⟩ := he
    have hx2 : x ∈ sortedRows rows likes dislikes := List.mem_of_mem_take hx
    have hx3 : x ∈ validRows rows likes dislikes :=
      (List.perm_insertionSort keyGE _).mem_iff.mp hx2
    have := List.of_mem_filter hx3
    simpa using this
  · intro x hx y hy
    have hsorted : List.Sorted keyGE (sortedRows rows likes dislikes) :=
      List.sorted_insertionSort keyGE _
    rw [← List.take_append_drop 5 (sortedRows rows likes dislikes)] at hsorted
    exact (List.pairwise_append.mp hsorted).2.2 x hx y hy
  · rw [List.take_append_drop]
    exact List.perm_insertionSort keyGE _
  · rintro rfl
    rfl
  · intro hall
    have hv : validRows rows likes dislikes = [] := by
      rw [validRows, List.filter_eq_nil_iff]
      intro x hx
      simp only [scoredRows, List.mem_map] at hx
      obtain ⟨r, hr, rfl⟩ := hx
      simpa using not_le.mpr (hall r hr)
    simp [findBestRecipes, sortedRows, hv]

theorem c8_rank_topk_witness :
    findBestRecipes [⟨1, ['n'], none, 5⟩] [['x']] [] = [] :=
  (c8_rank_topk [⟨1, ['n'], none, 5⟩] [['x']] []).2.2.2.2.2 (by decide)

/-- C1 counterexample: with the artifact present and its mtime *equal* to
the source mtime (so `artifact mtime ≥ source mtime` holds), the code
still invokes the builder — the reuse test is strict `>`, not `≥`. -/
theorem c1_counterexample :
    (5 : Nat) ≥ 5 ∧
    (loadOrBuild [(some 1, some ['a', 'b'])] ';' 5 5
      (some (some (buildFromSource ';' [(some 2, some ['x', 'y'])]))) true).builderRan
      = true :=
  ⟨le_refl 5, rfl⟩

/-- C1 (amended): the artifact is reused, without running the builder, iff
its mtime is strictly greater than the source mtime and positive;
otherwise the builder runs on the current source rows and (when the write
succeeds) the result is persisted and returned. -/
theorem c1_staleness_strict (rows : List SourceRow) (sep : Char)
    (inputMtime outputMtime : Nat) (art : Artifact) (writeOk : Bool) :
    (∀ t, art = some (some t) → outputMtime > inputMtime → outputMtime > 0 →
      loadOrBuild rows sep inputMtime outputMtime art writeOk = ⟨t, art, false⟩) ∧
    (¬(outputMtime > inputMtime ∧ outputMtime > 0) → writeOk = true →
      loadOrBuild rows sep inputMtime outputMtime art writeOk =
        ⟨buildFromSource sep rows, some (some (buildFromSource sep rows)), true⟩) := by
  constructor
  · rintro t rfl h1 h2
    simp [loadOrBuild, generateTrieIfNeeded, h1, h2, loadTrie]
  · rintro h rfl
    simp [loadOrBuild, generateTrieIfNeeded, h, loadTrie]

theorem c1_staleness_strict_witness :
    loadOrBuild [(some 1, some ['a', 'b'])] ';' 3 7 (some (some emptyTrie)) true =
      ⟨emptyTrie, some (some emptyTrie), false⟩ :=
  (c1_staleness_strict [(some 1, some ['a', 'b'])] ';' 3 7
    (some (some emptyTrie)) true).1 emptyTrie rfl (by decide) (by decide)

/-- C6 counterexample: on a write failure the freshly built index is *not*
returned — `temp_root` is a discarded local, `_load_trie` reads the old
artifact (here: a missing one, so the empty index), and the session's
index differs from the fresh build. -/
theorem c6_counterexample :
    (loadOrBuild [(some 1, some ['a', 'b'])] ';' 1 0 none false).builderRan = true ∧
    (loadOrBuild [(some 1, some ['a', 'b'])] ';' 1 0 none false).trieRoot ≠
      buildFromSource ';' [(some 1, some ['a', 'b'])] := by
  refine ⟨rfl, ?_⟩
  intro h
  have h2 := congrArg wordsRec h
  rw [show (loadOrBuild [(some 1, some ['a', 'b'])] ';' 1 0 none false).trieRoot =
    emptyTrie from rfl, wordsRec_emptyTrie,
    show wordsRec (buildFromSource ';' [(some 1, some ['a', 'b'])]) = [['a', 'b']]
      from rfl] at h2
  exact List.noConfusion h2

/-- C6 (amended): on a write failure the builder still runs and no
exception propagates, but its result is discarded: the artifact is left
unchanged and the returned index is the previous artifact's content when
readable, the empty index otherwise. -/
theorem c6_write_failure_discards_build (rows : List SourceRow) (sep : Char)
    (inputMtime outputMtime : Nat) (art : Artifact)
    (h : ¬(outputMtime > inputMtime ∧ outputMtime > 0)) :
    (loadOrBuild rows sep inputMtime outputMtime art false).builderRan = true ∧
    (loadOrBuild rows sep inputMtime outputMtime art false).artifact = art ∧
    (∀ t, art = some (some t) →
      (loadOrBuild rows sep inputMtime outputMtime art false).trieRoot = t) ∧
    ((art = none ∨ art = some none) →
      (loadOrBuild rows sep inputMtime outputMtime art false).trieRoot = emptyTrie) := by
  refine ⟨?_, ?_, ?_, ?_⟩
  · simp [loadOrBuild, generateTrieIfNeeded, h]
  · simp [loadOrBuild, generateTrieIfNeeded, h]
  · rintro t rfl
    simp [loadOrBuild, generateTrieIfNeeded, h, loadTrie]
  · rintro (rfl | rfl) <;> simp [loadOrBuild, generateTrieIfNeeded, h, loadTrie]

theorem c6_write_failure_discards_build_witness :
    (loadOrBuild [(some 1, some ['a', 'b'])] ';' 1 0 none false).trieRoot = emptyTrie :=
  (c6_write_failure_discards_build [(some 1, some ['a', 'b'])] ';' 1 0 none
    (by decide)).2.2.2 (Or.inl rfl)

/-- C7: a read failure on the artifact (missing or corrupt) degrades to
the empty index: `_load_trie` yields the empty trie, a fresh-looking
corrupt artifact suppresses the rebuild entirely, the staleness decision
never depends on the artifact's readability, and every search against the
empty index returns nothing. -/
theorem c7_corrupt_artifact_degrades (rows : List SourceRow) (sep : Char)
    (inputMtime outputMtime : Nat) (art : Artifact) (writeOk : Bool)
    (hbad : art = none ∨ art = some none) :
    loadTrie art = emptyTrie ∧
    (outputMtime > inputMtime → outputMtime > 0 →
      loadOrBuild rows sep inputMtime outputMtime art writeOk = ⟨emptyTrie, art, false⟩) ∧
    (∀ art' : Artifact,
      (loadOrBuild rows sep inputMtime outputMtime art writeOk).builderRan =
        (loadOrBuild rows sep inputMtime outputMtime art' writeOk).builderRan) ∧
    (∀ q : Word, searchT emptyTrie q = []) := by
  refine ⟨?_, ?_, ?_, ?_⟩
  · rcases hbad with rfl | rfl <;> rfl
  · intro h1 h2
    rcases hbad with rfl | rfl <;>
      simp [loadOrBuild, generateTrieIfNeeded, h1, h2, loadTrie]
  · intro art'
    by_cases hc : outputMtime > inputMtime ∧ outputMtime > 0 <;>
      cases writeOk <;> simp [loadOrBuild, generateTrieIfNeeded, hc]
  · intro q
    cases q with
    | nil => rfl
    | cons c rest => rfl

theorem c7_corrupt_artifact_degrades_witness :
    loadOrBuild [(some 1, some ['a', 'b'])] ';' 2 9 (some none) true =
      ⟨emptyTrie, some none, false⟩ :=
  (c7_corrupt_artifact_degrades [(some 1, some ['a', 'b'])] ';' 2 9 (some none) true
    (Or.inr rfl)).2.1 (by decide) (by decide)

end RecipeCore
